import Mathlib

/-!
Verification of the DCSBiosPi core against its specification.

The development shallowly embeds the Python sources:
* `src/dcsbpi/dcsb_parser.py` (`DcsbiosFramer.feed`) as `feedLoop` / `feed`
  over byte lists (bytes are modelled as `Nat`),
* `src/dcsbpi/dcsbios.py` (`DcsBios.parse_packet`, `format_command`,
  `schedule_periodic`, `stop_all_schedulers`) over character lists
  (the UTF-8 decode step, which is total under the errors-ignore policy,
  is abstracted: parsing operates on the decoded text).

Stateful Python code becomes explicit state passing; wall-clock timestamps
become an abstract `Nat` parameter; the threaded scheduler worker becomes a
discrete-time loop with a fuel bound.
-/

namespace DcsbPi

/-- A byte of the wire stream (value of a Python `bytes` element). -/
abbrev Byte := Nat

/-- The DCS-BIOS frame marker `HEADER = b"\x55\x55\x55\x55"` from
`dcsb_parser.py`. -/
def HEADER : List Byte := [0x55, 0x55, 0x55, 0x55]

/-- `startsWith pat l` holds when `pat` occurs at the very start of `l`
(Python slice comparison `l[0:len(pat)] == pat`). -/
def startsWith : List Byte → List Byte → Bool
  | [], _ => true
  | _ :: _, [] => false
  | a :: pa, b :: lb => a == b && startsWith pa lb

/-- `findIdx pat l` is Python `l.find(pat)`: the least index at which `pat`
occurs in `l`, or `none` when there is no occurrence (Python returns `-1`). -/
def findIdx (pat : List Byte) : List Byte → Option Nat
  | [] => if startsWith pat [] then some 0 else none
  | b :: t =>
    if startsWith pat (b :: t) then some 0
    else (findIdx pat t).map (· + 1)

/-- `findFrom pat l s` is Python `l.find(pat, s)`: the least index `≥ s` at
which `pat` occurs in `l`, or `none`. -/
def findFrom (pat l : List Byte) (s : Nat) : Option Nat :=
  (findIdx pat (l.drop s)).map (· + s)

/-- `occAt pat l i`: the pattern `pat` occurs in `l` at index `i`. -/
def occAt (pat l : List Byte) (i : Nat) : Prop :=
  ∃ t, l.drop i = pat ++ t

theorem startsWith_iff (pat : List Byte) : ∀ l : List Byte,
    startsWith pat l = true ↔ ∃ t, l = pat ++ t := by
  induction pat with
  | nil => intro l; simp [startsWith]
  | cons a pa ih =>
    intro l
    cases l with
    | nil => simp [startsWith]
    | cons b lb =>
      simp only [startsWith, Bool.and_eq_true, beq_iff_eq, ih lb]
      constructor
      · rintro ⟨rfl, t, rfl⟩; exact ⟨t, rfl⟩
      · rintro ⟨t, h⟩
        cases h
        exact ⟨rfl, t, rfl⟩

theorem findIdx_some_occ {pat l : List Byte} {i : Nat}
    (h : findIdx pat l = some i) : occAt pat l i := by
  induction l generalizing i with
  | nil =>
    simp only [findIdx] at h
    split at h
    · rename_i hs
      cases h
      exact (startsWith_iff pat []).1 hs
    · cases h
  | cons b t ih =>
    simp only [findIdx] at h
    split at h
    · rename_i hs
      cases h
      exact (startsWith_iff pat (b :: t)).1 hs
    · cases hf : findIdx pat t with
      | none => rw [hf] at h; cases h
      | some j =>
        rw [hf] at h
        simp only [Option.map_some'] at h
        cases h
        exact ih hf

theorem findIdx_some_min {pat l : List Byte} {i : Nat}
    (h : findIdx pat l = some i) : ∀ j, j < i → ¬ occAt pat l j := by
  induction l generalizing i with
  | nil =>
    simp only [findIdx] at h
    split at h
    · cases h; omega
    · cases h
  | cons b t ih =>
    simp only [findIdx] at h
    split at h
    · cases h; omega
    · rename_i hs
      cases hf : findIdx pat t with
      | none => rw [hf] at h; cases h
      | some k =>
        rw [hf] at h
        simp only [Option.map_some'] at h
        cases h
        intro j hj hocc
        cases j with
        | zero =>
          exact hs ((startsWith_iff pat (b :: t)).2 hocc)
        | succ j' =>
          exact ih hf j' (by omega) hocc

theorem findIdx_none {pat l : List Byte}
    (h : findIdx pat l = none) : ∀ j, ¬ occAt pat l j := by
  induction l with
  | nil =>
    simp only [findIdx] at h
    split at h
    · cases h
    · rename_i hs
      intro j hocc
      cases j with
      | zero => exact hs ((startsWith_iff pat []).2 hocc)
      | succ j' =>
        rcases hocc with ⟨t, ht⟩
        simp only [List.drop_nil] at ht
        exact hs ((startsWith_iff pat []).2 ⟨t, ht⟩)
  | cons b t ih =>
    simp only [findIdx] at h
    split at h
    · cases h
    · rename_i hs
      cases hf : findIdx pat t with
      | some k => rw [hf] at h; simp at h
      | none =>
        intro j hocc
        cases j with
        | zero => exact hs ((startsWith_iff pat (b :: t)).2 hocc)
        | succ j' => exact ih hf j' hocc

theorem findIdx_isSome_of_occ {pat l : List Byte} {j : Nat}
    (h : occAt pat l j) : (findIdx pat l).isSome := by
  cases hf : findIdx pat l with
  | none => exact absurd h (findIdx_none hf j)
  | some i => rfl

theorem findIdx_some_intro {pat l : List Byte} {i : Nat}
    (hocc : occAt pat l i) (hmin : ∀ j, j < i → ¬ occAt pat l j) :
    findIdx pat l = some i := by
  cases hf : findIdx pat l with
  | none => exact absurd hocc (findIdx_none hf i)
  | some k =>
    have hk := findIdx_some_occ hf
    have h1 : ¬ k < i := fun hlt => hmin k hlt hk
    have h2 : ¬ i < k := fun hlt => findIdx_some_min hf i hlt hocc
    have : k = i := by omega
    rw [this]

/-- An occurrence of the nonempty pattern `pat` at `i` fits inside `l`. -/
theorem occAt_bound {pat l : List Byte} {i : Nat} (hpat : pat ≠ [])
    (h : occAt pat l i) : i + pat.length ≤ l.length := by
  rcases h with ⟨t, ht⟩
  have hlen : l.length - i = pat.length + t.length := by
    have := congrArg List.length ht
    simpa using this
  have hi : i ≤ l.length := by
    by_contra hgt
    have : l.drop i = [] := List.drop_eq_nil_of_le (by omega)
    rw [this] at ht
    have := congrArg List.length ht
    simp at this
    exact hpat (List.length_eq_zero.1 (by omega))
  omega

theorem occAt_header_bound {l : List Byte} {i : Nat}
    (h : occAt HEADER l i) : i + 4 ≤ l.length :=
  occAt_bound (by decide) h

theorem findIdx_header_bound {l : List Byte} {i : Nat}
    (h : findIdx HEADER l = some i) : i + 4 ≤ l.length :=
  occAt_header_bound (findIdx_some_occ h)

/-- Shifting an occurrence through `List.drop`. -/
theorem occAt_drop {pat l : List Byte} {k j : Nat} :
    occAt pat (l.drop k) j ↔ occAt pat l (k + j) := by
  unfold occAt
  rw [List.drop_drop]

/-- An occurrence in `x` is an occurrence in `x ++ d`. -/
theorem occAt_append_of_occAt {pat x : List Byte} (d : List Byte) {j : Nat}
    (hpat : pat ≠ []) (h : occAt pat x j) : occAt pat (x ++ d) j := by
  have hj : j ≤ x.length := by
    have := occAt_bound hpat h
    omega
  rcases h with ⟨t, ht⟩
  refine ⟨t ++ d, ?_⟩
  rw [List.drop_append_eq_append_drop, Nat.sub_eq_zero_of_le hj]
  simp [ht]

/-- An occurrence in `x ++ d` that fits inside `x` is an occurrence in `x`. -/
theorem occAt_of_occAt_append {pat x d : List Byte} {j : Nat}
    (hfit : j + pat.length ≤ x.length)
    (h : occAt pat (x ++ d) j) : occAt pat x j := by
  rcases h with ⟨t, ht⟩
  have hj : j ≤ x.length := by omega
  rw [List.drop_append_eq_append_drop, Nat.sub_eq_zero_of_le hj,
    List.drop_zero] at ht
  have hlen : pat.length ≤ (x.drop j).length := by
    simp only [List.length_drop]; omega
  have htake : (x.drop j).take pat.length = pat := by
    have h1 := congrArg (List.take pat.length) ht
    rw [List.take_append_of_le_length hlen, List.take_left] at h1
    exact h1
  have hsplit := List.take_append_drop pat.length (x.drop j)
  rw [htake] at hsplit
  exact ⟨(x.drop j).drop pat.length, hsplit.symm⟩

theorem findFrom_some_ge {pat l : List Byte} {s i : Nat}
    (h : findFrom pat l s = some i) : s ≤ i := by
  unfold findFrom at h
  cases hf : findIdx pat (l.drop s) with
  | none => rw [hf] at h; cases h
  | some j =>
    rw [hf] at h
    simp only [Option.map_some'] at h
    cases h
    omega

theorem findFrom_some_occ {pat l : List Byte} {s i : Nat}
    (h : findFrom pat l s = some i) : occAt pat l i := by
  unfold findFrom at h
  cases hf : findIdx pat (l.drop s) with
  | none => rw [hf] at h; cases h
  | some j =>
    rw [hf] at h
    simp only [Option.map_some'] at h
    have := findIdx_some_occ hf
    rw [occAt_drop] at this
    cases h
    rwa [Nat.add_comm] at this

theorem findFrom_some_min {pat l : List Byte} {s i : Nat}
    (h : findFrom pat l s = some i) :
    ∀ j, s ≤ j → j < i → ¬ occAt pat l j := by
  unfold findFrom at h
  cases hf : findIdx pat (l.drop s) with
  | none => rw [hf] at h; cases h
  | some k =>
    rw [hf] at h
    simp only [Option.map_some'] at h
    cases h
    intro j hsj hji hocc
    have : occAt pat (l.drop s) (j - s) := by
      rw [occAt_drop]
      have : s + (j - s) = j := by omega
      rwa [this]
    exact findIdx_some_min hf (j - s) (by omega) this

theorem findFrom_none {pat l : List Byte} {s : Nat}
    (h : findFrom pat l s = none) : ∀ j, s ≤ j → ¬ occAt pat l j := by
  unfold findFrom at h
  cases hf : findIdx pat (l.drop s) with
  | some k => rw [hf] at h; cases h
  | none =>
    intro j hsj hocc
    have : occAt pat (l.drop s) (j - s) := by
      rw [occAt_drop]
      have : s + (j - s) = j := by omega
      rwa [this]
    exact findIdx_none hf (j - s) this

theorem findFrom_none_intro {pat l : List Byte} {s : Nat}
    (h : ∀ j, s ≤ j → ¬ occAt pat l j) : findFrom pat l s = none := by
  unfold findFrom
  cases hf : findIdx pat (l.drop s) with
  | none => rfl
  | some k =>
    have := findIdx_some_occ hf
    rw [occAt_drop] at this
    exact absurd this (h (s + k) (by omega))

theorem findFrom_some_intro {pat l : List Byte} {s i : Nat} (hsi : s ≤ i)
    (hocc : occAt pat l i) (hmin : ∀ j, s ≤ j → j < i → ¬ occAt pat l j) :
    findFrom pat l s = some i := by
  unfold findFrom
  have h1 : findIdx pat (l.drop s) = some (i - s) := by
    apply findIdx_some_intro
    · rw [occAt_drop]
      have : s + (i - s) = i := by omega
      rwa [this]
    · intro j hj hocc'
      rw [occAt_drop] at hocc'
      exact hmin (s + j) (by omega) (by omega) hocc'
  rw [h1]
  simp only [Option.map_some']
  congr 1
  omega

theorem findFrom_header_ge4 {l : List Byte} {i : Nat}
    (h : findFrom HEADER l 4 = some i) : 4 ≤ i :=
  findFrom_some_ge h

/-- The body of the `while True` loop of `DcsbiosFramer.feed`
(`dcsb_parser.py`), applied to the whole accumulated buffer: returns the
packets passed to `on_packet` (in order) and the final buffer.

The Python loop, per iteration: `start = buf.find(HEADER)`; if `-1`, trim the
buffer to its last 3 bytes when longer than 3 and stop; else drop the bytes
before `start`, look for the next header occurrence from offset 4; if none,
stop; else emit `buf[0:next_h]` and delete it, continuing the loop. -/
def feedLoop (buf : List Byte) : List (List Byte) × List Byte :=
  if hs : (findIdx HEADER buf).isSome then
    let s := (findIdx HEADER buf).get hs
    if he : (findFrom HEADER (buf.drop s) 4).isSome then
      let e := (findFrom HEADER (buf.drop s) 4).get he
      let res := feedLoop ((buf.drop s).drop e)
      (((buf.drop s).take e) :: res.1, res.2)
    else ([], buf.drop s)
  else ([], if 3 < buf.length then buf.drop (buf.length - 3) else buf)
termination_by buf.length
decreasing_by
  have h1 : (findIdx HEADER buf).get hs + 4 ≤ buf.length :=
    findIdx_header_bound (Option.some_get hs).symm
  have h2 : 4 ≤
      (findFrom HEADER (List.drop ((findIdx HEADER buf).get hs) buf) 4).get he :=
    findFrom_some_ge (Option.some_get he).symm
  simp only [List.length_drop]
  omega

/-- `DcsbiosFramer.feed`: on empty input return immediately, otherwise extend
the buffer with the input and run the framing loop. -/
def feed (buf data : List Byte) : List (List Byte) × List Byte :=
  if data = [] then ([], buf) else feedLoop (buf ++ data)

/-- A sequence of `feed` calls, one chunk at a time, on the same framer:
returns all packets emitted across the calls (in order) and the final
buffer. -/
def feedMany : List Byte → List (List Byte) → List (List Byte) × List Byte
  | buf, [] => ([], buf)
  | buf, c :: cs =>
    ((feed buf c).1 ++ (feedMany (feed buf c).2 cs).1,
     (feedMany (feed buf c).2 cs).2)

theorem feedLoop_no_header {buf : List Byte}
    (h : findIdx HEADER buf = none) :
    feedLoop buf =
      ([], if 3 < buf.length then buf.drop (buf.length - 3) else buf) := by
  rw [feedLoop.eq_def]
  simp [h]

theorem feedLoop_no_second {buf : List Byte} {s : Nat}
    (hs : findIdx HEADER buf = some s)
    (he : findFrom HEADER (buf.drop s) 4 = none) :
    feedLoop buf = ([], buf.drop s) := by
  rw [feedLoop.eq_def]
  simp [hs, he]

theorem feedLoop_emit {buf : List Byte} {s e : Nat}
    (hs : findIdx HEADER buf = some s)
    (he : findFrom HEADER (buf.drop s) 4 = some e) :
    feedLoop buf =
      (((buf.drop s).take e) :: (feedLoop ((buf.drop s).drop e)).1,
       (feedLoop ((buf.drop s).drop e)).2) := by
  conv_lhs => rw [feedLoop.eq_def]
  simp only [hs, he, Option.isSome_some, Option.get_some, dite_true]

/-- Dropping a header-free strict prefix (of length leaving at least 3 bytes)
does not change what the framing loop does: neither the emitted packets nor
the final buffer. -/
theorem feedLoop_drop (x : List Byte) (k : Nat) (hk : k + 3 ≤ x.length)
    (h : ∀ j, j < k → ¬ occAt HEADER x j) :
    feedLoop x = feedLoop (x.drop k) := by
  by_cases hk0 : k = 0
  · subst hk0; simp
  cases hf : findIdx HEADER x with
  | none =>
    have hnone : findIdx HEADER (x.drop k) = none := by
      cases hf2 : findIdx HEADER (x.drop k) with
      | none => rfl
      | some j =>
        have hocc := findIdx_some_occ hf2
        rw [occAt_drop] at hocc
        exact absurd hocc (findIdx_none hf (k + j))
    rw [feedLoop_no_header hf, feedLoop_no_header hnone]
    have hlen : (x.drop k).length = x.length - k := by simp
    by_cases h3 : 3 < x.length - k
    · rw [if_pos (by omega), if_pos (by omega)]
      rw [List.drop_drop]
      congr 2
      omega
    · have c1 : 3 < x.length := by omega
      have c2 : ¬ 3 < (x.drop k).length := by
        rw [hlen]
        omega
      rw [if_pos c1, if_neg c2]
      have hk3 : x.length - 3 = k := by omega
      rw [hk3]
  | some s =>
    have hks : k ≤ s := by
      by_contra hlt
      exact h s (by omega) (findIdx_some_occ hf)
    have hf2 : findIdx HEADER (x.drop k) = some (s - k) := by
      apply findIdx_some_intro
      · rw [occAt_drop]
        have hs : k + (s - k) = s := by omega
        rw [hs]
        exact findIdx_some_occ hf
      · intro j hj hocc
        rw [occAt_drop] at hocc
        exact findIdx_some_min hf (k + j) (by omega) hocc
    have hdd : (x.drop k).drop (s - k) = x.drop s := by
      rw [List.drop_drop]
      congr 1
      omega
    cases hsec : findFrom HEADER (x.drop s) 4 with
    | none =>
      rw [feedLoop_no_second hf hsec, feedLoop_no_second hf2 (by rwa [hdd])]
      rw [hdd]
    | some e =>
      rw [feedLoop_emit hf hsec, feedLoop_emit hf2 (by rwa [hdd])]
      rw [hdd]

/-- Compositionality of the framing loop: running it on `buf ++ d` emits
first whatever it emits on `buf` alone, then whatever it emits on the
left-over buffer extended with `d`; the final buffers agree likewise.
This is the key step behind chunk-size independence. -/
theorem feedLoop_append (buf d : List Byte) :
    feedLoop (buf ++ d) =
      ((feedLoop buf).1 ++ (feedLoop ((feedLoop buf).2 ++ d)).1,
       (feedLoop ((feedLoop buf).2 ++ d)).2) := by
  cases hf : findIdx HEADER buf with
  | none =>
    rw [feedLoop_no_header hf]
    by_cases h3 : 3 < buf.length
    · rw [if_pos h3]
      have key : feedLoop (buf ++ d) =
          feedLoop ((buf ++ d).drop (buf.length - 3)) := by
        apply feedLoop_drop
        · simp
          omega
        · intro j hj hocc
          have hfit : j + HEADER.length ≤ buf.length := by
            simp [HEADER]
            omega
          exact findIdx_none hf j (occAt_of_occAt_append hfit hocc)
      have hsplit : (buf ++ d).drop (buf.length - 3) =
          buf.drop (buf.length - 3) ++ d := by
        have hz : buf.length - 3 - buf.length = 0 := by omega
        rw [List.drop_append_eq_append_drop, hz]
        simp
      rw [key, hsplit]
      simp
    · rw [if_neg h3]
      simp
  | some s =>
    have hs4 := findIdx_header_bound hf
    have key : feedLoop (buf ++ d) = feedLoop (buf.drop s ++ d) := by
      have hsplit : (buf ++ d).drop s = buf.drop s ++ d := by
        have hz : s - buf.length = 0 := by omega
        rw [List.drop_append_eq_append_drop, hz]
        simp
      rw [← hsplit]
      apply feedLoop_drop
      · simp
        omega
      · intro j hj hocc
        have hfit : j + HEADER.length ≤ buf.length := by
          simp [HEADER]
          omega
        exact findIdx_some_min hf j hj (occAt_of_occAt_append hfit hocc)
    rw [key]
    have h0 : findIdx HEADER (buf.drop s ++ d) = some 0 := by
      apply findIdx_some_intro
      · apply occAt_append_of_occAt d (by decide)
        rw [occAt_drop]
        simpa using findIdx_some_occ hf
      · intro j hj
        omega
    cases hsec : findFrom HEADER (buf.drop s) 4 with
    | none =>
      rw [feedLoop_no_second hf hsec]
      simp
    | some e =>
      have he4 := findFrom_some_ge hsec
      have heb := occAt_header_bound (findFrom_some_occ hsec)
      have hsec2 : findFrom HEADER (buf.drop s ++ d) 4 = some e := by
        apply findFrom_some_intro he4
        · exact occAt_append_of_occAt d (by decide) (findFrom_some_occ hsec)
        · intro j h4j hje hocc
          have hfit : j + HEADER.length ≤ (buf.drop s).length := by
            show j + 4 ≤ (buf.drop s).length
            omega
          exact findFrom_some_min hsec j h4j hje
            (occAt_of_occAt_append hfit hocc)
      have hx0 : findFrom HEADER ((buf.drop s ++ d).drop 0) 4 = some e := by
        simpa using hsec2
      rw [feedLoop_emit h0 hx0]
      simp only [List.drop_zero]
      have htake : (buf.drop s ++ d).take e = (buf.drop s).take e :=
        List.take_append_of_le_length (by omega)
      have hdropE : (buf.drop s ++ d).drop e = (buf.drop s).drop e ++ d := by
        rw [List.drop_append_eq_append_drop, Nat.sub_eq_zero_of_le (by omega)]
        simp
      have ih := feedLoop_append ((buf.drop s).drop e) d
      rw [htake, hdropE, ih, feedLoop_emit hf hsec]
      simp
termination_by buf.length
decreasing_by
  simp only [List.length_drop]
  omega

/-- Compositionality of `feed`: feeding `a ++ b` in one call equals feeding
`a` then `b`, both for the emitted packets and for the final buffer. -/
theorem feed_append (buf a b : List Byte) :
    feed buf (a ++ b) =
      ((feed buf a).1 ++ (feed (feed buf a).2 b).1,
       (feed (feed buf a).2 b).2) := by
  by_cases ha : a = []
  · subst ha
    simp [feed]
  · by_cases hb : b = []
    · subst hb
      simp [feed, ha]
    · have hab : a ++ b ≠ [] := by simp [ha]
      simp only [feed, if_neg ha, if_neg hb, if_neg hab]
      rw [← List.append_assoc]
      exact feedLoop_append (buf ++ a) b

/-- Feeding a list of chunks one call at a time is the same as feeding their
concatenation in a single call. -/
theorem feedMany_eq_feed (chunks : List (List Byte)) : ∀ buf,
    feedMany buf chunks = feed buf chunks.flatten := by
  induction chunks with
  | nil =>
    intro buf
    simp [feedMany, feed]
  | cons c cs ih =>
    intro buf
    simp only [feedMany, List.flatten_cons]
    rw [feed_append buf c cs.flatten, ih (feed buf c).2]

/-- Every packet the framing loop emits starts with the 4-byte marker and
contains no further marker occurrence at offset 4 or later: it is one marker
followed by the raw bytes strictly before the next marker occurrence. -/
theorem feedLoop_frames_shape (buf : List Byte) :
    ∀ f ∈ (feedLoop buf).1,
      (∃ t, f = HEADER ++ t) ∧ findFrom HEADER f 4 = none := by
  cases hf : findIdx HEADER buf with
  | none =>
    rw [feedLoop_no_header hf]
    intro f hf'
    simp at hf'
  | some s =>
    cases hsec : findFrom HEADER (buf.drop s) 4 with
    | none =>
      rw [feedLoop_no_second hf hsec]
      intro f hf'
      simp at hf'
    | some e =>
      have hs4 := findIdx_header_bound hf
      have he4 := findFrom_some_ge hsec
      have heb := occAt_header_bound (findFrom_some_occ hsec)
      rw [feedLoop_emit hf hsec]
      intro f hf'
      simp only [List.mem_cons] at hf'
      cases hf' with
      | inl heq =>
        subst heq
        constructor
        · have hocc0 : occAt HEADER (buf.drop s) 0 := by
            rw [occAt_drop]
            simpa using findIdx_some_occ hf
          rcases hocc0 with ⟨t, ht⟩
          rw [List.drop_zero] at ht
          refine ⟨t.take (e - HEADER.length), ?_⟩
          rw [ht, List.take_append_eq_append_take,
            List.take_of_length_le (by simp [HEADER]; omega)]
        · apply findFrom_none_intro
          intro j h4j hocc
          have hb := occAt_header_bound hocc
          have hlen : ((buf.drop s).take e).length ≤ e := by
            simp
          have hocc2 : occAt HEADER (buf.drop s) j := by
            have hlift : occAt HEADER ((buf.drop s).take e ++ (buf.drop s).drop e) j :=
              occAt_append_of_occAt ((buf.drop s).drop e) (by decide) hocc
            rwa [List.take_append_drop] at hlift
          exact findFrom_some_min hsec j h4j (by omega) hocc2
      | inr hmem =>
        exact feedLoop_frames_shape ((buf.drop s).drop e) f hmem
termination_by buf.length
decreasing_by
  simp only [List.length_drop]
  omega

/-- The concrete scenario chunk from the spec:
`b"\x55\x55\x55\x55ABC\x55\x55\x55\x55"`. -/
def exampleChunk : List Byte :=
  [0x55, 0x55, 0x55, 0x55, 0x41, 0x42, 0x43, 0x55, 0x55, 0x55, 0x55]

theorem exampleChunk_feedLoop :
    feedLoop exampleChunk =
      ([[0x55, 0x55, 0x55, 0x55, 0x41, 0x42, 0x43]], HEADER) := by
  have h1 : findIdx HEADER exampleChunk = some 0 := by decide
  have h2 : findFrom HEADER (exampleChunk.drop 0) 4 = some 7 := by decide
  rw [feedLoop_emit h1 h2]
  have h3 : findIdx HEADER ((exampleChunk.drop 0).drop 7) = some 0 := by
    decide
  have h4 : findFrom HEADER (((exampleChunk.drop 0).drop 7).drop 0) 4 =
      none := by decide
  rw [feedLoop_no_second h3 h4]
  decide

theorem exampleChunk_feed :
    feed [] exampleChunk =
      ([[0x55, 0x55, 0x55, 0x55, 0x41, 0x42, 0x43]], HEADER) := by
  have hne : exampleChunk ≠ [] := by decide
  simp only [feed, if_neg hne, List.nil_append]
  exact exampleChunk_feedLoop

/-- C1, counterexample: feeding the chunk
`b"\x55\x55\x55\x55ABC\x55\x55\x55\x55"` does NOT emit the frame `b"ABC"`:
the emitted packet is `buf[start:next_h]`, which keeps the leading marker. -/
theorem frame_strictly_between_markers_cex :
    (feed [] exampleChunk).1 ≠ [[0x41, 0x42, 0x43]] := by
  rw [exampleChunk_feed]
  decide

/-- C1 (amended): every frame passed to the Framer's callback consists of
one occurrence of the 4-byte marker followed by the raw bytes strictly
before the next occurrence (leading marker included, terminating marker
excluded, no further occurrence at offset ≥ 4 inside the frame); feeding
the single chunk `b"\x55\x55\x55\x55ABC\x55\x55\x55\x55"` emits exactly one
frame `b"\x55\x55\x55\x55ABC"` and leaves the buffer containing only the
unterminated second marker. -/
theorem frame_includes_leading_marker :
    (∀ buf f, f ∈ (feedLoop buf).1 →
      (∃ t, f = HEADER ++ t) ∧ findFrom HEADER f 4 = none)
    ∧ feed [] exampleChunk = ([HEADER ++ [0x41, 0x42, 0x43]], HEADER) := by
  constructor
  · intro buf
    exact feedLoop_frames_shape buf
  · rw [exampleChunk_feed]
    decide

/-- Witness for `frame_includes_leading_marker` at the concrete example
frame. -/
theorem frame_includes_leading_marker_w :
    (∃ t, HEADER ++ [0x41, 0x42, 0x43] = HEADER ++ t) ∧
      findFrom HEADER (HEADER ++ [0x41, 0x42, 0x43]) 4 = none :=
  frame_includes_leading_marker.1 exampleChunk (HEADER ++ [0x41, 0x42, 0x43])
    (by rw [exampleChunk_feedLoop]; decide)

/-- C2: for every byte sequence and every way of splitting it into chunks
(`chunks`, with concatenation `chunks.flatten`), feeding the chunks one
`feed` call at a time emits exactly the same frames, in the same order (a
fortiori the same multiset), as feeding the whole sequence in a single
call. -/
theorem chunked_feed_eq_single_feed (chunks : List (List Byte)) :
    (feedMany [] chunks).1 = (feed [] chunks.flatten).1 := by
  rw [feedMany_eq_feed]

/-- C3: if the accumulated buffer (previous buffer plus newly fed data)
contains exactly one marker occurrence — a first occurrence at `s` and none
at any later position — then the `feed` call emits zero frames, regardless
of how many bytes follow the marker. -/
theorem single_marker_emits_no_frames (st d : List Byte) (s : Nat)
    (hs : findIdx HEADER (st ++ d) = some s)
    (hno : findFrom HEADER (st ++ d) (s + 1) = none) :
    (feed st d).1 = [] := by
  by_cases hd : d = []
  · simp [feed, hd]
  · simp only [feed, if_neg hd]
    have hsec : findFrom HEADER ((st ++ d).drop s) 4 = none := by
      apply findFrom_none_intro
      intro j h4j hocc
      rw [occAt_drop] at hocc
      exact findFrom_none hno (s + j) (by omega) hocc
    rw [feedLoop_no_second hs hsec]

/-- Witness for `single_marker_emits_no_frames`: one marker followed by
trailing data emits nothing. -/
theorem single_marker_emits_no_frames_w :
    (feed [] [0x55, 0x55, 0x55, 0x55, 1, 2, 3]).1 = [] :=
  single_marker_emits_no_frames [] [0x55, 0x55, 0x55, 0x55, 1, 2, 3] 0
    (by decide) (by decide)

/-- C4: when a (non-empty) `feed` call finds no marker in the accumulated
buffer, the buffer is truncated to exactly its last 3 bytes whenever it is
longer than 3; consequently, feeding any chunk sequence whose concatenated
content contains no marker leaves a buffer of length at most 3 — the buffer
never grows unbounded in the absence of markers. -/
theorem no_marker_buffer_trimmed :
    (∀ st d : List Byte, d ≠ [] → findIdx HEADER (st ++ d) = none →
      (feed st d).2 = if 3 < (st ++ d).length
        then (st ++ d).drop ((st ++ d).length - 3) else st ++ d)
    ∧ (∀ chunks : List (List Byte), findIdx HEADER chunks.flatten = none →
      (feedMany [] chunks).2.length ≤ 3) := by
  constructor
  · intro st d hd hn
    simp only [feed, if_neg hd]
    rw [feedLoop_no_header hn]
  · intro chunks hn
    rw [feedMany_eq_feed]
    by_cases hj : chunks.flatten = []
    · simp [feed, hj]
    · simp only [feed, if_neg hj, List.nil_append]
      rw [feedLoop_no_header hn]
      by_cases h3 : 3 < chunks.flatten.length
      · rw [if_pos h3]
        show (chunks.flatten.drop (chunks.flatten.length - 3)).length ≤ 3
        simp only [List.length_drop]
        omega
      · rw [if_neg h3]
        show chunks.flatten.length ≤ 3
        omega

/-- Witness for `no_marker_buffer_trimmed` on a concrete marker-free
input. -/
theorem no_marker_buffer_trimmed_w :
    (feed [] [1, 2, 3, 4, 5]).2 = [3, 4, 5] ∧
      (feedMany [] [[1, 2, 3, 4, 5]]).2.length ≤ 3 := by
  constructor
  · have h := no_marker_buffer_trimmed.1 [] [1, 2, 3, 4, 5]
      (by decide) (by decide)
    rw [h]
    decide
  · exact no_marker_buffer_trimmed.2 [[1, 2, 3, 4, 5]] (by decide)

/-! ## `dcsbios.py`: message parsing, command formatting

The parser input is the UTF-8-decoded text of the packet (the decode step
`data.decode("utf-8", errors="ignore")` is total and is abstracted here:
parsing operates on the decoded character list). Wall-clock `time.time()`
is abstracted as a `Nat` parameter. A regex handler's `pat.search(name)`
is modelled as a boolean predicate on the name, and whether a callback
raises is modelled as a boolean predicate on the message. -/

/-- Python `str.splitlines` line-boundary characters. -/
def isLineBreak (c : Char) : Bool :=
  c.toNat == 0x0A || c.toNat == 0x0B || c.toNat == 0x0C || c.toNat == 0x0D ||
  c.toNat == 0x1C || c.toNat == 0x1D || c.toNat == 0x1E || c.toNat == 0x85 ||
  c.toNat == 0x2028 || c.toNat == 0x2029

/-- Accumulator worker for `splitlines`: `acc` holds the current line in
reverse. A trailing line terminator produces no extra empty line, matching
Python; `\r\n` counts as a single boundary. -/
def splitlinesAux : List Char → List Char → List (List Char)
  | [], acc => if acc.isEmpty then [] else [acc.reverse]
  | '\r' :: '\n' :: rest, acc => acc.reverse :: splitlinesAux rest []
  | c :: rest, acc =>
    if isLineBreak c then acc.reverse :: splitlinesAux rest []
    else splitlinesAux rest (c :: acc)

/-- Python `text.splitlines()`. -/
def splitlines (l : List Char) : List (List Char) := splitlinesAux l []

/-- Python whitespace characters for `str.strip()`. -/
def isPySpace (c : Char) : Bool :=
  (0x09 ≤ c.toNat && c.toNat ≤ 0x0D) || (0x1C ≤ c.toNat && c.toNat ≤ 0x1F) ||
  c.toNat == 0x20 || c.toNat == 0x85 || c.toNat == 0xA0 ||
  c.toNat == 0x1680 || (0x2000 ≤ c.toNat && c.toNat ≤ 0x200A) ||
  c.toNat == 0x202F || c.toNat == 0x205F || c.toNat == 0x3000 ||
  c.toNat == 0x2028 || c.toNat == 0x2029

/-- Python `line.strip()`: remove leading and trailing whitespace. -/
def strip (l : List Char) : List Char :=
  ((l.dropWhile isPySpace).reverse.dropWhile isPySpace).reverse

/-- The `name`/`value` split of `parse_packet`: if the line contains `':'`,
split on the first `':'` (Python `line.split(":", 1)`); otherwise the whole
line is the name and the value is empty. -/
def splitFirstColon (l : List Char) : List Char × List Char :=
  if l.contains ':' then
    (l.takeWhile (fun c => c != ':'), (l.dropWhile (fun c => c != ':')).tail)
  else (l, [])

/-- The `DcsMessage` dataclass. -/
structure DcsMessage where
  name : List Char
  value : List Char
  raw : List Char
  timestamp : Nat
deriving DecidableEq

/-- A registered handler: `pat` models `pat.search(msg.name)` as a
predicate, `raises` models whether the callback raises on a message. -/
structure Handler where
  pat : List Char → Bool
  raises : DcsMessage → Bool

/-- Python dict assignment `self.last_messages[name] = msg` on an
insertion-ordered association list. -/
def upsert (m : List (List Char × DcsMessage)) (k : List Char)
    (v : DcsMessage) : List (List Char × DcsMessage) :=
  if m.any (fun p => p.1 == k) then
    m.map (fun p => if p.1 == k then (k, v) else p)
  else m ++ [(k, v)]

/-- The dispatch loop of `parse_packet` over one message: for each handler
(indexed from `i`) whose pattern matches the name, the callback is invoked
(recorded in the first component); a raising callback is caught by the
`try`/`except Exception: pass` and only counted (second component). -/
def dispatchFrom (msg : DcsMessage) : Nat → List Handler →
    List (Nat × DcsMessage) × Nat
  | _, [] => ([], 0)
  | i, h :: rest =>
    if h.pat msg.name then
      ((i, msg) :: (dispatchFrom msg (i + 1) rest).1,
       (if h.raises msg then 1 else 0) + (dispatchFrom msg (i + 1) rest).2)
    else dispatchFrom msg (i + 1) rest

/-- Result of one `parse_packet` call: the returned message list, the
updated `last_messages` cache, the sequence of callback invocations
(handler index, message), and the number of swallowed callback
exceptions. -/
structure ParseResult where
  messages : List DcsMessage
  cache : List (List Char × DcsMessage)
  calls : List (Nat × DcsMessage)
  swallowed : Nat
deriving DecidableEq

/-- The line loop of `parse_packet`: strip each line, skip empty ones,
split on the first colon, build the message, update the cache, dispatch,
and continue with the remaining lines. -/
def parseLines (handlers : List Handler) (ts : Nat) :
    List (List Char) → List (List Char × DcsMessage) → ParseResult
  | [], cache => ⟨[], cache, [], 0⟩
  | line :: rest, cache =>
    if (strip line).isEmpty then parseLines handlers ts rest cache
    else
      let nv := splitFirstColon (strip line)
      let msg : DcsMessage := ⟨nv.1, nv.2, strip line, ts⟩
      let d := dispatchFrom msg 0 handlers
      let r := parseLines handlers ts rest (upsert cache nv.1 msg)
      ⟨msg :: r.messages, r.cache, d.1 ++ r.calls, d.2 + r.swallowed⟩

/-- `DcsBios.parse_packet` on the decoded text, given the registered
handlers, the current time, and the current `last_messages` cache. -/
def parse_packet (handlers : List Handler) (ts : Nat)
    (cache : List (List Char × DcsMessage)) (text : List Char) :
    ParseResult :=
  parseLines handlers ts (splitlines text) cache

/-- The textual step of `DcsBios.format_command`: append `"\n"` unless the
command already ends with it. -/
def formatText (cmd : List Char) : List Char :=
  if cmd.getLast? = some '\n' then cmd else cmd ++ ['\n']

/-- UTF-8 encoding of one Unicode scalar value. -/
def utf8EncodeChar (c : Char) : List Byte :=
  if c.toNat < 0x80 then [c.toNat]
  else if c.toNat < 0x800 then
    [0xC0 + c.toNat / 0x40, 0x80 + c.toNat % 0x40]
  else if c.toNat < 0x10000 then
    [0xE0 + c.toNat / 0x1000, 0x80 + c.toNat / 0x40 % 0x40,
     0x80 + c.toNat % 0x40]
  else
    [0xF0 + c.toNat / 0x40000, 0x80 + c.toNat / 0x1000 % 0x40,
     0x80 + c.toNat / 0x40 % 0x40, 0x80 + c.toNat % 0x40]

/-- Python `s.encode("utf-8")`. -/
def utf8Encode (l : List Char) : List Byte :=
  (l.map utf8EncodeChar).flatten

/-- `DcsBios.format_command`: terminate with a newline if absent, then
UTF-8-encode. -/
def format_command (cmd : List Char) : List Byte :=
  utf8Encode (formatText cmd)

/-- C5: `parse_packet` is line-count- and order-preserving: the `raw`
fields of the returned messages are exactly the stripped lines of the
decoded input that are non-empty after stripping, in input order (so for an
input with N such lines, exactly N messages are produced). -/
theorem parse_packet_line_count (handlers : List Handler) (ts : Nat)
    (cache : List (List Char × DcsMessage)) (text : List Char) :
    (parse_packet handlers ts cache text).messages.map (fun m => m.raw) =
      ((splitlines text).map strip).filter (fun l => !l.isEmpty) := by
  unfold parse_packet
  generalize splitlines text = lines
  induction lines generalizing cache with
  | nil => simp [parseLines]
  | cons line rest ih =>
    simp only [parseLines, List.map_cons, List.filter_cons]
    by_cases hl : (strip line).isEmpty
    · rw [if_pos hl, ih cache, hl]
      simp
    · rw [if_neg hl]
      simp only [List.map_cons]
      rw [ih (upsert cache (splitFirstColon (strip line)).1
        ⟨(splitFirstColon (strip line)).1, (splitFirstColon (strip line)).2,
          strip line, ts⟩)]
      rw [Bool.not_eq_true] at hl
      rw [hl]
      simp

theorem split_colon_reassemble : ∀ l : List Char, l.contains ':' = true →
    (l.takeWhile (fun c => c != ':')) ++
      ':' :: (l.dropWhile (fun c => c != ':')).tail = l
    ∧ (l.takeWhile (fun c => c != ':')).contains ':' = false := by
  intro l
  induction l with
  | nil =>
    intro h
    simp at h
  | cons a t ih =>
    intro h
    by_cases ha : a = ':'
    · subst ha
      constructor
      · simp [List.takeWhile_cons, List.dropWhile_cons]
      · simp [List.takeWhile_cons]
    · have hpa : (a != ':') = true := by simp [ha]
      have h' : t.contains ':' = true := by
        simp only [List.contains_cons, Bool.or_eq_true, beq_iff_eq] at h
        rcases h with h | h
        · exact absurd h.symm ha
        · exact h
      constructor
      · simp only [List.takeWhile_cons, List.dropWhile_cons, hpa, if_true,
          List.cons_append]
        rw [(ih h').1]
      · simp only [List.takeWhile_cons, hpa, if_true, List.contains_cons,
          Bool.or_eq_false_iff]
        constructor
        · simp [ha]
          intro hcontra
          exact ha hcontra.symm
        · exact (ih h').2

/-- C6: for every line, the message produced by `parse_packet` carries as
`name` the part of the line before the first `':'` and as `value` the part
after it (so `name ++ ':' ++ value` reassembles the line and `name` is
colon-free); a line with no `':'` yields the whole line as name and an
empty value, never an error; and parsing the text of `"NAME:VALUE\n"`
yields exactly one message with name `"NAME"` and value `"VALUE"`. -/
theorem message_name_value_split :
    (∀ l : List Char,
      (l.contains ':' = false → splitFirstColon l = (l, []))
      ∧ (l.contains ':' = true →
          (splitFirstColon l).1 ++ ':' :: (splitFirstColon l).2 = l
          ∧ (splitFirstColon l).1.contains ':' = false))
    ∧ (∀ (handlers : List Handler) (ts : Nat)
        (cache : List (List Char × DcsMessage)),
        (parse_packet handlers ts cache ("NAME:VALUE\n".toList)).messages.map
          (fun m => (m.name, m.value)) =
          [("NAME".toList, "VALUE".toList)]) := by
  constructor
  · intro l
    constructor
    · intro h
      unfold splitFirstColon
      rw [if_neg (by rw [h]; decide)]
    · intro h
      have hre := split_colon_reassemble l h
      unfold splitFirstColon
      rw [if_pos h]
      exact hre
  · intro handlers ts cache
    have hsplit : splitlines ("NAME:VALUE\n".toList) =
        ["NAME:VALUE".toList] := by decide
    unfold parse_packet
    rw [hsplit]
    simp only [parseLines]
    rw [if_neg (by decide)]
    simp only [parseLines, List.map_cons, List.map_nil]
    decide

/-- Witness for `message_name_value_split` at concrete lines with and
without a colon. -/
theorem message_name_value_split_w :
    splitFirstColon ("NOCOLON".toList) = ("NOCOLON".toList, []) ∧
      (splitFirstColon ("A:B:C".toList)).1 ++
        ':' :: (splitFirstColon ("A:B:C".toList)).2 = "A:B:C".toList ∧
      (splitFirstColon ("A:B:C".toList)).1.contains ':' = false := by
  refine ⟨(message_name_value_split.1 ("NOCOLON".toList)).1 (by decide), ?_, ?_⟩
  · exact ((message_name_value_split.1 ("A:B:C".toList)).2 (by decide)).1
  · exact ((message_name_value_split.1 ("A:B:C".toList)).2 (by decide)).2

/-- The counterfactual handler list in which no callback ever raises: same
patterns, callbacks that return normally. -/
def clearRaises (handlers : List Handler) : List Handler :=
  handlers.map (fun h => ⟨h.pat, fun _ => false⟩)

theorem dispatchFrom_calls_clear (msg : DcsMessage) :
    ∀ (hs : List Handler) (i : Nat),
    (dispatchFrom msg i (clearRaises hs)).1 = (dispatchFrom msg i hs).1 := by
  intro hs
  induction hs with
  | nil =>
    intro i
    rfl
  | cons h rest ih =>
    intro i
    simp only [clearRaises, List.map_cons, dispatchFrom] at ih ⊢
    by_cases hp : h.pat msg.name = true
    · rw [if_pos hp, if_pos hp]
      simp only [List.cons.injEq, true_and]
      exact ih (i + 1)
    · rw [if_neg hp, if_neg hp]
      exact ih (i + 1)

theorem parseLines_messages_cache_any (ts : Nat) : ∀ (lines : List (List Char))
    (h1 h2 : List Handler) (cache : List (List Char × DcsMessage)),
    (parseLines h1 ts lines cache).messages =
      (parseLines h2 ts lines cache).messages
    ∧ (parseLines h1 ts lines cache).cache =
      (parseLines h2 ts lines cache).cache := by
  intro lines
  induction lines with
  | nil =>
    intro h1 h2 cache
    exact ⟨rfl, rfl⟩
  | cons line rest ih =>
    intro h1 h2 cache
    simp only [parseLines]
    by_cases hl : (strip line).isEmpty = true
    · rw [if_pos hl, if_pos hl]
      exact ih h1 h2 cache
    · rw [if_neg hl, if_neg hl]
      refine ⟨?_, ?_⟩
      · simp only [List.cons.injEq, true_and]
        exact (ih h1 h2 _).1
      · exact (ih h1 h2 _).2

theorem parseLines_calls_clear (hs : List Handler) (ts : Nat) :
    ∀ (lines : List (List Char)) (cache : List (List Char × DcsMessage)),
    (parseLines (clearRaises hs) ts lines cache).calls =
      (parseLines hs ts lines cache).calls := by
  intro lines
  induction lines with
  | nil =>
    intro cache
    rfl
  | cons line rest ih =>
    intro cache
    simp only [parseLines]
    by_cases hl : (strip line).isEmpty = true
    · rw [if_pos hl, if_pos hl]
      exact ih cache
    · rw [if_neg hl, if_neg hl]
      simp only []
      rw [dispatchFrom_calls_clear, ih]

/-- C7: callback exceptions are swallowed by the
`try`/`except Exception: pass` around each handler invocation: whatever the
callbacks' raising behavior, the returned message list, the last-value
cache, and the full sequence of handler invocations (all matching handlers,
for all lines) are identical to the run in which every callback returns
normally. -/
theorem handler_exception_swallowed (handlers : List Handler) (ts : Nat)
    (cache : List (List Char × DcsMessage)) (text : List Char) :
    (parse_packet handlers ts cache text).messages =
        (parse_packet (clearRaises handlers) ts cache text).messages
    ∧ (parse_packet handlers ts cache text).cache =
        (parse_packet (clearRaises handlers) ts cache text).cache
    ∧ (parse_packet handlers ts cache text).calls =
        (parse_packet (clearRaises handlers) ts cache text).calls := by
  unfold parse_packet
  refine ⟨?_, ?_, ?_⟩
  · exact (parseLines_messages_cache_any ts (splitlines text) handlers
      (clearRaises handlers) cache).1
  · exact (parseLines_messages_cache_any ts (splitlines text) handlers
      (clearRaises handlers) cache).2
  · exact (parseLines_calls_clear handlers ts (splitlines text) cache).symm

/-- C8: `format_command` appends exactly one trailing newline when the
command does not already end with one, leaves an already-terminated command
unchanged, and the textual formatting step is idempotent: formatting an
already-formatted command yields the same bytes. -/
theorem format_command_idempotent :
    (∀ cmd : List Char, ¬ cmd.getLast? = some '\n' →
      formatText cmd = cmd ++ ['\n'])
    ∧ (∀ cmd : List Char, cmd.getLast? = some '\n' → formatText cmd = cmd)
    ∧ (∀ cmd : List Char,
        format_command (formatText cmd) = format_command cmd) := by
  refine ⟨?_, ?_, ?_⟩
  · intro cmd h
    simp [formatText, h]
  · intro cmd h
    simp [formatText, h]
  · intro cmd
    unfold format_command
    congr 1
    unfold formatText
    by_cases h : cmd.getLast? = some '\n'
    · simp [h]
    · rw [if_neg h, if_pos (List.getLast?_concat cmd)]

/-- Witness for `format_command_idempotent` at a concrete command. -/
theorem format_command_idempotent_w :
    formatText ("K:X".toList) = "K:X".toList ++ ['\n'] ∧
      formatText ("K:X\n".toList) = "K:X\n".toList ∧
      format_command (formatText ("K:X".toList)) =
        format_command ("K:X".toList) := by
  refine ⟨?_, ?_, ?_⟩
  · exact format_command_idempotent.1 ("K:X".toList) (by decide)
  · exact format_command_idempotent.2.1 ("K:X\n".toList) (by decide)
  · exact format_command_idempotent.2.2 ("K:X".toList)

/-! ## `schedule_periodic` and `stop_all_schedulers`

The worker thread of `schedule_periodic` is embedded in discrete time.
Each task owns a `stop_event`; its cancel handle sets it, modelled by the
time `cancel : Option Nat` at which it becomes set (`none` = never).
`stop_event.wait(interval)` returns after the interval or as soon as the
event is set, whichever comes first. A fuel bound replaces the unbounded
`while` loop. -/

/-- Whether a stop event that gets set at time `c` (`none` = never) is set
at time `t`. -/
def eventSetAt (cancel : Option Nat) (t : Nat) : Bool :=
  match cancel with
  | none => false
  | some c => if c ≤ t then true else false

/-- The worker loop of `schedule_periodic`:
`while not stop_event.is_set(): send(format_command(command)); stop_event.wait(interval)`.
Arguments: fuel, current time `t`, interval `d`, cancel time. Returns the
times at which `send_func` is invoked and the time the loop exits (`none`
if the fuel bound was reached first). `send_func` errors are caught
per-tick, so an invocation is counted regardless of its outcome. -/
def workerRun : Nat → Nat → Nat → Option Nat → List Nat × Option Nat
  | 0, _, _, _ => ([], none)
  | fuel + 1, t, d, cancel =>
    if eventSetAt cancel t then ([], some t)
    else
      ((t :: (workerRun fuel (match cancel with
          | none => t + d
          | some c => min (t + d) c) d cancel).1),
        (workerRun fuel (match cancel with
          | none => t + d
          | some c => min (t + d) c) d cancel).2)

/-- C9: if the task's stop event is set at time `c` before the first
interval elapses (`c < t0 + d`), the worker performs at most one `send`
(the immediate first tick), every `send` happens strictly before the
cancellation, and the loop exits at time `max t0 c` — without waiting out
the full interval `t0 + d`. -/
theorem cancel_before_first_interval (t0 d c fuel : Nat)
    (hc : c < t0 + d) (hf : 2 ≤ fuel) :
    (workerRun fuel t0 d (some c)).1.length ≤ 1
    ∧ (∀ t ∈ (workerRun fuel t0 d (some c)).1, t < c)
    ∧ (workerRun fuel t0 d (some c)).2 = some (max t0 c) := by
  obtain ⟨f, rfl⟩ : ∃ f, fuel = f + 2 := ⟨fuel - 2, by omega⟩
  by_cases h0 : c ≤ t0
  · have hset : eventSetAt (some c) t0 = true := by
      simp [eventSetAt, h0]
    simp only [workerRun, hset, if_true]
    refine ⟨by simp, by simp, ?_⟩
    congr 1
    omega
  · have hset : eventSetAt (some c) t0 = false := by
      simp [eventSetAt]
      omega
    have hmin : min (t0 + d) c = c := by omega
    have hset2 : eventSetAt (some c) c = true := by
      simp [eventSetAt]
    simp only [workerRun, hset, Bool.false_eq_true, if_false, hmin, hset2,
      if_true]
    refine ⟨by simp, ?_, ?_⟩
    · intro t ht
      simp at ht
      omega
    · congr 1
      omega

/-- Witness for `cancel_before_first_interval`: interval 5, cancel at 3. -/
theorem cancel_before_first_interval_w :
    (workerRun 2 0 5 (some 3)).1.length ≤ 1
    ∧ (∀ t ∈ (workerRun 2 0 5 (some 3)).1, t < 3)
    ∧ (workerRun 2 0 5 (some 3)).2 = some (max 0 3) :=
  cancel_before_first_interval 0 5 3 2 (by decide) (by decide)

/-- The scheduler-related state of a `DcsBios` object: the
`_scheduler_stop` event, and for each task started by `schedule_periodic`
the time at which its own `stop_event` was set (`none` if its cancel handle
was never called). Worker loops read only their own entry. -/
structure SchedulerState where
  schedulerStop : Bool
  taskStops : List (Option Nat)
deriving DecidableEq

/-- `DcsBios.stop_all_schedulers`: `self._scheduler_stop.set()` — it sets
only the `_scheduler_stop` event. -/
def stop_all_schedulers (s : SchedulerState) : SchedulerState :=
  ⟨true, s.taskStops⟩

/-- C10: `stop_all_schedulers` stops none of the periodic tasks: it leaves
every task's own stop event exactly as it was (first conjunct), and a
worker — which by construction reads only its own stop event, never
`_scheduler_stop` — whose event is never set keeps invoking its send
function on every loop iteration (second conjunct: one send per unit of
fuel, for arbitrarily large fuel). -/
theorem stop_all_schedulers_stops_nothing :
    (∀ s : SchedulerState, (stop_all_schedulers s).taskStops = s.taskStops)
    ∧ (∀ fuel t0 d : Nat, (workerRun fuel t0 d none).1.length = fuel) := by
  constructor
  · intro s
    rfl
  · intro fuel
    induction fuel with
    | zero =>
      intro t0 d
      rfl
    | succ f ih =>
      intro t0 d
      simp only [workerRun, eventSetAt, Bool.false_eq_true, if_false,
        List.length_cons]
      rw [ih]

end DcsbPi
